import Mathlib

/-! # pokecache: a time-expiring in-memory cache

A shallow embedding of `internal/pokecache/pokecache.go`.

* `time.Time` is a library type. After `.UTC()` a `Time` carries no monotonic
  reading, so `Before` compares wall-clock instants. An instant is modelled as
  an integer count of nanoseconds; `Add` and `Before` follow the library's
  documented contract ("Add returns the time t+d", "Before reports whether the
  instant t is before u").
* `time.Duration` is an `int64` count of nanoseconds. The source negates it
  (`-last`), and that negation is modelled with its two's-complement wrap.
* `[]byte` is a value that is either `nil` or a sequence of bytes.
* `map[string]cacheEntry` is a finite map with unique keys and no order
  (`Finmap`); `range` visits every entry once in an unspecified order.
* Every method holds `mux` for its whole body, so the methods are modelled as
  atomic state transformers and the mutex itself carries no state.
* `time.Now()` is an input of `Add`.
-/

namespace Pokecache

/-! ## Library types -/

/-- An instant of `time.Time`, in nanoseconds on the wall-clock line. -/
abbrev Time := Int

/-- A `time.Duration`: a signed 64-bit count of nanoseconds. -/
abbrev Duration := Int

/-- The smallest `int64`, `math.MinInt64`. -/
def minInt64 : Int := -(2 ^ 63)

/-- The largest `int64`, `math.MaxInt64`. -/
def maxInt64 : Int := 2 ^ 63 - 1

/-- The values a `time.Duration` can hold. -/
def isDuration (d : Int) : Prop := minInt64 ≤ d ∧ d ≤ maxInt64

instance (d : Int) : Decidable (isDuration d) := by
  unfold isDuration; infer_instance

/-- Reduction of an integer to the `int64` it is stored as. -/
def wrapInt64 (x : Int) : Int := (x + 2 ^ 63) % 2 ^ 64 - 2 ^ 63

/-- Unary minus on a `time.Duration` (`-last`), wrapping as `int64` does. -/
def negDuration (d : Duration) : Duration := wrapInt64 (-d)

/-- The library call `t.Add(d)`. -/
def timeAdd (t : Time) (d : Duration) : Time := t + d

/-- The library call `t.Before(u)`. -/
def timeBefore (t u : Time) : Bool := decide (t < u)

/-- A Go byte slice: `nil`, or a (possibly empty) sequence of bytes. -/
inductive ByteSlice where
  | nil : ByteSlice
  | bytes (data : List (Fin 256)) : ByteSlice
  deriving DecidableEq, Repr

/-! ## Data model -/

/-- The struct `cacheEntry`: a cached item with its creation time. -/
structure cacheEntry where
  createdAt : Time
  val : ByteSlice
  deriving DecidableEq, Repr

/-- The zero value of `cacheEntry`, which a map read yields for a missing key. -/
def cacheEntry.zero : cacheEntry := { createdAt := 0, val := ByteSlice.nil }

/-- The Go type `map[string]cacheEntry`. -/
abbrev EntryMap := Finmap (fun _ : String => cacheEntry)

/-- The struct `Cache`; the field `mux` carries no state between calls. -/
structure Cache where
  cache : EntryMap

/-- The map built by `make(map[string]cacheEntry)`. -/
def emptyMap : EntryMap := ∅

/-- The value that the function `NewCache` returns: a cache with an empty map.
The statement `go c.reapLoop(interval)` of its body, and what the goroutine does
to the program, is `Program.afterNewCache` with `Program.step`. -/
def NewCache (_interval : Duration) : Cache := { cache := emptyMap }

/-- The method `Add`, with `now` the value of `time.Now().UTC()`. -/
def Cache.Add (c : Cache) (key : String) (value : ByteSlice) (now : Time) : Cache :=
  { cache := c.cache.insert key { createdAt := now, val := value } }

/-- The method `Get`: the two results, and the cache as `Get` leaves it. -/
def Cache.Get (c : Cache) (key : String) : (ByteSlice × Bool) × Cache :=
  match c.cache.lookup key with
  | some e => ((e.val, true), c)
  | none => ((cacheEntry.zero.val, false), c)

/-- The body of the loop in `reap` for one entry `k, v` of the range. -/
def reapEntry (threshold : Time) (m : EntryMap) (k : String) (v : cacheEntry) : EntryMap :=
  if timeBefore v.createdAt threshold then m.erase k else m

/-- The method `reap`: a range over the map that deletes every entry whose
`createdAt` is before `now.Add(-last)`. The range reaches each entry once, in
an order the language leaves open; the fold carries the proof that the order
does not change the result. -/
def Cache.reap (c : Cache) (now : Time) (last : Duration) : Cache :=
  { cache := c.cache.foldl (reapEntry (timeAdd now (negDuration last)))
      (by
        intro m k₁ v₁ k₂ v₂
        unfold reapEntry
        split_ifs <;> first | rfl | exact Finmap.erase_erase)
      c.cache }

/-- The method `reapLoop`, run over the times `nows` at which its loop body is
entered (one per tick received so far): each iteration calls
`c.reap(time.Now().UTC(), interval)`. `time.NewTicker` panics on a non-positive
interval, which is the result `none`. -/
def Cache.reapLoop (c : Cache) (interval : Duration) (nows : List Time) : Option Cache :=
  if interval ≤ 0 then none
  else some (nows.foldl (fun c' now => c'.reap now interval) c)

/-! ## Sequences of operations -/

/-- One call on the cache: `Add`, `Get`, or one reap pass. -/
inductive Op where
  | add (key : String) (value : ByteSlice) (now : Time) : Op
  | get (key : String) : Op
  | reap (now : Time) (last : Duration) : Op
  deriving DecidableEq, Repr

/-- The cache after one call. -/
def Cache.step (c : Cache) : Op → Cache
  | Op.add key value now => c.Add key value now
  | Op.get key => (c.Get key).2
  | Op.reap now last => c.reap now last

/-- The cache after a sequence of calls, run from left to right. -/
def Cache.run (c : Cache) (ops : List Op) : Cache := ops.foldl Cache.step c

/-- The call is an `Add` of the given key. -/
def Op.addsKey (k : String) : Op → Bool
  | Op.add key _ _ => decide (key = k)
  | _ => false

/-- The calls that C7 allows after `Add(k, v)` stamped at `t0`: any `Get`, an
`Add` to another key, and a reap pass with interval `d` at a time before
`t0 + d`. -/
def Op.beforeExpiry (k : String) (t0 : Time) (d : Duration) : Op → Prop
  | Op.add key _ _ => key ≠ k
  | Op.get _ => True
  | Op.reap now last => last = d ∧ now < t0 + d

instance (k : String) (t0 : Time) (d : Duration) (op : Op) :
    Decidable (op.beforeExpiry k t0 d) := by
  cases op <;> unfold Op.beforeExpiry <;> infer_instance

/-- What happens at one reading of the clock: a caller's `Add` or `Get`, or a
tick of the ticker of `reapLoop`. -/
inductive Action where
  | add (key : String) (value : ByteSlice) : Action
  | get (key : String) : Action
  | tick : Action
  deriving DecidableEq, Repr

/-- An action together with the clock value at which it runs. -/
structure Event where
  clock : Time
  action : Action
  deriving DecidableEq, Repr

/-- The call an event makes on a cache whose reaper runs with `interval`: `Add`
stamps the entry with the clock, and a tick runs one iteration of the loop of
`reapLoop`, `c.reap(now, interval)` with `now` the clock. -/
def Event.toOp (interval : Duration) (ev : Event) : Op :=
  match ev.action with
  | Action.add key value => Op.add key value ev.clock
  | Action.get key => Op.get key
  | Action.tick => Op.reap ev.clock interval

/-- The cache after a timed execution. -/
def Cache.exec (c : Cache) (interval : Duration) (evs : List Event) : Cache :=
  c.run (evs.map (Event.toOp interval))

/-- Every entry of the cache is stamped at a clock value `≥ 0` and is not older
than `d` at any of the tick times in `S`. -/
def FreshSince (d : Duration) (S : Time → Prop) (c : Cache) : Prop :=
  ∀ k e, c.cache.lookup k = some e → 0 ≤ e.createdAt ∧ ∀ t, S t → t - d ≤ e.createdAt

/-- The library constant `time.Millisecond`, in nanoseconds. -/
def millisecond : Duration := 1000000

/-! ## The program around the cache

`NewCache` starts `reapLoop` in a goroutine of its own. The goroutine enters
`reapLoop` when the scheduler gets to it, which may be before or after calls of
the owner on the cache that `NewCache` returned. A panic that no function
recovers ends the whole program, whichever goroutine it is raised in. -/

/-- The program that owns a cache built by `NewCache(interval)`: the goroutine
is started and has not entered `reapLoop` yet (`spawned`), `reapLoop` holds its
ticker and waits for ticks (`ticking`), or an unrecovered panic has ended the
program (`terminated`). -/
inductive Program where
  | spawned (c : Cache) : Program
  | ticking (c : Cache) : Program
  | terminated : Program

/-- One step of the program: a call of the owner on the cache, the goroutine
entering `reapLoop` (its call of `time.NewTicker`), or the loop of `reapLoop`
receiving a tick and running its body at the time `now`. -/
inductive ProgStep where
  | call (op : Op) : ProgStep
  | enterReapLoop : ProgStep
  | tick (now : Time) : ProgStep
  deriving DecidableEq, Repr

/-- The program right after `NewCache(interval)` has returned. -/
def Program.afterNewCache (interval : Duration) : Program :=
  Program.spawned (NewCache interval)

/-- The effect of one step. Entering `reapLoop` is `reapLoop` before any tick:
the ticker is there, or `time.NewTicker` has panicked and the program is over.
A tick runs `c.reap(now, interval)`; there is no tick without a ticker, and
`reapLoop` is entered once. Nothing happens in a program that is over. -/
def Program.step (interval : Duration) : Program → ProgStep → Program
  | Program.spawned c, ProgStep.call op => Program.spawned (c.step op)
  | Program.spawned c, ProgStep.enterReapLoop =>
    match c.reapLoop interval [] with
    | some c' => Program.ticking c'
    | none => Program.terminated
  | Program.spawned c, ProgStep.tick _ => Program.spawned c
  | Program.ticking c, ProgStep.call op => Program.ticking (c.step op)
  | Program.ticking c, ProgStep.enterReapLoop => Program.ticking c
  | Program.ticking c, ProgStep.tick now => Program.ticking (c.reap now interval)
  | Program.terminated, _ => Program.terminated

/-- The program after a sequence of steps. -/
def Program.run (interval : Duration) (p : Program) (steps : List ProgStep) : Program :=
  steps.foldl (Program.step interval) p

/-- What a call `Get(key)` of the owner returns in a state of the program;
`none` when the program is over and no call returns. -/
def Program.Get (p : Program) (key : String) : Option (ByteSlice × Bool) :=
  match p with
  | Program.spawned c => some (c.Get key).1
  | Program.ticking c => some (c.Get key).1
  | Program.terminated => none

/-- The step of the program that an event of a timed execution is. -/
def Event.toStep (ev : Event) : ProgStep :=
  match ev.action with
  | Action.add key value => ProgStep.call (Op.add key value ev.clock)
  | Action.get key => ProgStep.call (Op.get key)
  | Action.tick => ProgStep.tick ev.clock

/-! ## Reading the map after each method -/

section Lookup

theorem lookup_NewCache (interval : Duration) (k : String) :
    (NewCache interval).cache.lookup k = none :=
  Finmap.lookup_empty k

theorem lookup_Add_self (c : Cache) (k : String) (v : ByteSlice) (now : Time) :
    (c.Add k v now).cache.lookup k = some { createdAt := now, val := v } :=
  Finmap.lookup_insert c.cache

theorem lookup_Add_of_ne (c : Cache) {k k' : String} (v : ByteSlice) (now : Time)
    (h : k' ≠ k) : (c.Add k v now).cache.lookup k' = c.cache.lookup k' :=
  Finmap.lookup_insert_of_ne c.cache h

theorem Get_of_lookup_some {c : Cache} {k : String} {e : cacheEntry}
    (h : c.cache.lookup k = some e) : c.Get k = ((e.val, true), c) := by
  simp [Cache.Get, h]

theorem Get_of_lookup_none {c : Cache} {k : String}
    (h : c.cache.lookup k = none) : c.Get k = ((ByteSlice.nil, false), c) := by
  simp [Cache.Get, h, cacheEntry.zero]

theorem lookup_reapEntry (th : Time) (m : EntryMap) (k : String) (v : cacheEntry)
    (k' : String) :
    (reapEntry th m k v).lookup k' =
      if timeBefore v.createdAt th = true ∧ k' = k then none else m.lookup k' := by
  unfold reapEntry
  by_cases hs : timeBefore v.createdAt th = true
  · by_cases hk : k' = k
    · subst hk; simp [hs, Finmap.lookup_erase]
    · simp [hs, hk, Finmap.lookup_erase_ne hk]
  · simp [hs]

/-- A range over the entries `l`, starting from the map `m`: a key is deleted
when `l` holds a stale entry for it, and is left as it is otherwise. -/
theorem lookup_foldl_reapEntry (th : Time) (l : List (Sigma fun _ : String => cacheEntry))
    (m : EntryMap) (k' : String) :
    (l.foldl (fun d s => reapEntry th d s.1 s.2) m).lookup k' =
      if (∃ s ∈ l, timeBefore s.2.createdAt th = true ∧ k' = s.1) then none
      else m.lookup k' := by
  induction l generalizing m with
  | nil => simp
  | cons x l ih =>
    rw [List.foldl_cons, ih, lookup_reapEntry]
    by_cases h1 : ∃ s ∈ l, timeBefore s.2.createdAt th = true ∧ k' = s.1
    · have h2 : ∃ s ∈ x :: l, timeBefore s.2.createdAt th = true ∧ k' = s.1 := by
        obtain ⟨s, hs, hp⟩ := h1
        exact ⟨s, List.mem_cons_of_mem _ hs, hp⟩
      rw [if_pos h1, if_pos h2]
    · rw [if_neg h1]
      by_cases h3 : timeBefore x.2.createdAt th = true ∧ k' = x.1
      · have h2 : ∃ s ∈ x :: l, timeBefore s.2.createdAt th = true ∧ k' = s.1 :=
          ⟨x, List.mem_cons_self _ _, h3⟩
        rw [if_pos h3, if_pos h2]
      · have h2 : ¬ ∃ s ∈ x :: l, timeBefore s.2.createdAt th = true ∧ k' = s.1 := by
          rintro ⟨s, hs, hp⟩
          rcases List.mem_cons.1 hs with rfl | hs
          · exact h3 hp
          · exact h1 ⟨s, hs, hp⟩
        rw [if_neg h3, if_neg h2]

/-- What one reap pass leaves under each key: the entry that was there, unless
its `createdAt` is before `now.Add(-last)`. -/
theorem lookup_reap (c : Cache) (now : Time) (last : Duration) (k : String) :
    (c.reap now last).cache.lookup k =
      (c.cache.lookup k).filter
        (fun e => !timeBefore e.createdAt (timeAdd now (negDuration last))) := by
  obtain ⟨m⟩ := c
  induction m using Finmap.induction_on with
  | H s =>
    simp only [Cache.reap, Finmap.foldl, AList.toFinmap_entries, Multiset.coe_foldl]
    rw [lookup_foldl_reapEntry]
    cases hl : Finmap.lookup k (AList.toFinmap s) with
    | none =>
      simp
    | some e =>
      have hmem : (⟨k, e⟩ : Sigma fun _ : String => cacheEntry) ∈ s.entries := by
        have := (Finmap.mem_lookup_iff (s := AList.toFinmap s) (a := k) (b := e)).1
          (by rw [hl]; exact rfl)
        simpa using this
      by_cases hs : timeBefore e.createdAt (timeAdd now (negDuration last)) = true
      · rw [if_pos ⟨⟨k, e⟩, hmem, hs, rfl⟩]
        simp [Option.filter, hs]
      · have hno : ¬ ∃ x ∈ s.entries, timeBefore x.2.createdAt
            (timeAdd now (negDuration last)) = true ∧ k = x.1 := by
          rintro ⟨⟨k2, e2⟩, hx, hst, hk⟩
          simp only at hk
          subst hk
          have h2 : e2 ∈ Finmap.lookup k (AList.toFinmap s) :=
            (Finmap.mem_lookup_iff (s := AList.toFinmap s)).2 (by simpa using hx)
          rw [hl] at h2
          have : e = e2 := by simpa using h2
          subst this
          exact hs hst
        rw [if_neg hno]
        simp [Option.filter, hs]

theorem negDuration_eq_neg {d : Int} (hd : isDuration d) (hne : d ≠ minInt64) :
    negDuration d = -d := by
  unfold negDuration wrapInt64
  unfold isDuration minInt64 maxInt64 at hd
  unfold minInt64 at hne
  obtain ⟨hlo, hhi⟩ := hd
  norm_num at hlo hhi hne ⊢
  have h : (-d + 9223372036854775808) % 18446744073709551616 = -d + 9223372036854775808 :=
    Int.emod_eq_of_lt (by omega) (by omega)
  rw [h]
  ring

theorem negDuration_minInt64 : negDuration minInt64 = minInt64 := by
  decide

/-- For a duration whose negation does not wrap, the test in `reap` reads
`createdAt < now - last`. -/
theorem timeBefore_threshold {d : Int} (hd : isDuration d) (hne : d ≠ minInt64)
    (t now : Int) :
    timeBefore t (timeAdd now (negDuration d)) = decide (t < now - d) := by
  rw [negDuration_eq_neg hd hne]
  simp [timeBefore, timeAdd, sub_eq_add_neg]

theorem isDuration_of_nonneg {d : Int} (h0 : 0 ≤ d) (hhi : d ≤ maxInt64) :
    isDuration d ∧ d ≠ minInt64 := by
  unfold isDuration minInt64
  refine ⟨⟨?_, hhi⟩, ?_⟩
  · norm_num; omega
  · norm_num; omega

/-- A reap pass keeps an entry that is not older than the interval. -/
theorem lookup_reap_of_fresh {c : Cache} {now : Time} {d : Duration} {k : String}
    {e : cacheEntry} (hd : isDuration d) (hne : d ≠ minInt64)
    (hl : c.cache.lookup k = some e) (hfresh : ¬ e.createdAt < now - d) :
    (c.reap now d).cache.lookup k = some e := by
  rw [lookup_reap, hl]
  show (if (!timeBefore e.createdAt (timeAdd now (negDuration d))) = true then some e
    else none) = some e
  rw [timeBefore_threshold hd hne, if_pos (by rw [decide_eq_false hfresh]; rfl)]

/-- A reap pass deletes an entry that is older than the interval. -/
theorem lookup_reap_of_stale {c : Cache} {now : Time} {d : Duration} {k : String}
    {e : cacheEntry} (hd : isDuration d) (hne : d ≠ minInt64)
    (hl : c.cache.lookup k = some e) (hstale : e.createdAt < now - d) :
    (c.reap now d).cache.lookup k = none := by
  rw [lookup_reap, hl]
  show (if (!timeBefore e.createdAt (timeAdd now (negDuration d))) = true then some e
    else none) = none
  rw [timeBefore_threshold hd hne, if_neg (by rw [decide_eq_true hstale]; simp)]

/-- A reap pass adds no key. -/
theorem lookup_reap_of_none {c : Cache} (now : Time) (d : Duration) {k : String}
    (hl : c.cache.lookup k = none) : (c.reap now d).cache.lookup k = none := by
  rw [lookup_reap, hl]
  rfl

theorem lookup_step_of_not_addsKey (c : Cache) (op : Op) (k : String)
    (h : op.addsKey k = false) :
    (c.step op).cache.lookup k = none ∨ (c.step op).cache.lookup k = c.cache.lookup k := by
  cases op with
  | add key value now =>
    have hk : k ≠ key := by
      intro hk
      simp [Op.addsKey, hk] at h
    exact Or.inr (lookup_Add_of_ne c value now hk)
  | get key =>
    right
    simp only [Cache.step, Cache.Get]
    split <;> rfl
  | reap now last =>
    simp only [Cache.step, lookup_reap]
    cases hl : c.cache.lookup k with
    | none => left; rfl
    | some e =>
      by_cases hs : timeBefore e.createdAt (timeAdd now (negDuration last)) = true
      · left; simp [Option.filter, hs]
      · right; simp [Option.filter, hs]

/-- Calls other than an `Add` of `k` either leave `k` as it is or remove it. -/
theorem lookup_run_of_not_addsKey (ops : List Op) (c : Cache) (k : String)
    (h : ∀ op ∈ ops, op.addsKey k = false) :
    (c.run ops).cache.lookup k = none ∨ (c.run ops).cache.lookup k = c.cache.lookup k := by
  induction ops generalizing c with
  | nil => exact Or.inr rfl
  | cons op ops ih =>
    have h1 := lookup_step_of_not_addsKey c op k (h op (List.mem_cons_self _ _))
    have h2 := ih (c.step op) (fun o ho => h o (List.mem_cons_of_mem _ ho))
    simp only [Cache.run, List.foldl_cons] at h2 ⊢
    rcases h2 with h2 | h2
    · exact Or.inl h2
    · rcases h1 with h1 | h1
      · exact Or.inl (h2.trans h1)
      · exact Or.inr (h2.trans h1)

theorem lookup_run_none (ops : List Op) (c : Cache) (k : String)
    (h : ∀ op ∈ ops, op.addsKey k = false) (hc : c.cache.lookup k = none) :
    (c.run ops).cache.lookup k = none := by
  rcases lookup_run_of_not_addsKey ops c k h with h1 | h1
  · exact h1
  · exact h1.trans hc

theorem lookup_reap_eq_some {c : Cache} {now : Time} {d : Duration} {k : String}
    {e : cacheEntry} (hd : isDuration d) (hne : d ≠ minInt64)
    (h : (c.reap now d).cache.lookup k = some e) :
    c.cache.lookup k = some e ∧ ¬ e.createdAt < now - d := by
  cases hl : c.cache.lookup k with
  | none =>
    rw [lookup_reap_of_none now d hl] at h
    exact absurd h (by simp)
  | some e' =>
    by_cases hs : e'.createdAt < now - d
    · rw [lookup_reap_of_stale hd hne hl hs] at h
      exact absurd h (by simp)
    · rw [lookup_reap_of_fresh hd hne hl hs] at h
      cases h
      exact ⟨rfl, hs⟩

end Lookup

/-! ## The reaper's invariant along a timed execution -/

section Lifetime

theorem FreshSince.mono {d : Duration} {S S' : Time → Prop} {c : Cache}
    (h : FreshSince d S c) (hSS : ∀ t, S' t → S t) : FreshSince d S' c :=
  fun k e hl => ⟨(h k e hl).1, fun t ht => (h k e hl).2 t (hSS t ht)⟩

theorem freshSince_NewCache (d interval : Duration) (S : Time → Prop) :
    FreshSince d S (NewCache interval) := by
  intro k e hl
  rw [lookup_NewCache] at hl
  exact absurd hl (by simp)

/-- One event keeps the invariant, and a tick adds its own time to `S`. -/
theorem freshSince_step {d : Duration} (hd : isDuration d) (hne : d ≠ minInt64)
    (hpos : 0 < d) {S : Time → Prop} {c : Cache} (ev : Event) (h0 : 0 ≤ ev.clock)
    (hS : ∀ t, S t → t ≤ ev.clock) (hc : FreshSince d S c) :
    FreshSince d (fun t => S t ∨ (ev.action = Action.tick ∧ t = ev.clock))
      (c.step (ev.toOp d)) := by
  obtain ⟨clock, action⟩ := ev
  cases action with
  | add key value =>
    intro k e hl
    simp only [Event.toOp, Cache.step] at hl
    by_cases hk : k = key
    · subst hk
      rw [lookup_Add_self] at hl
      cases hl
      refine ⟨h0, ?_⟩
      rintro t (ht | ⟨hf, -⟩)
      · have := hS t ht
        show t - d ≤ clock
        have h1 : t ≤ clock := this
        linarith
      · exact absurd hf (by simp)
    · rw [lookup_Add_of_ne c value clock hk] at hl
      refine ⟨(hc k e hl).1, ?_⟩
      rintro t (ht | ⟨hf, -⟩)
      · exact (hc k e hl).2 t ht
      · exact absurd hf (by simp)
  | get key =>
    intro k e hl
    have hl' : c.cache.lookup k = some e := by
      simp only [Event.toOp, Cache.step, Cache.Get] at hl
      split at hl <;> exact hl
    refine ⟨(hc k e hl').1, ?_⟩
    rintro t (ht | ⟨hf, -⟩)
    · exact (hc k e hl').2 t ht
    · exact absurd hf (by simp)
  | tick =>
    intro k e hl
    simp only [Event.toOp, Cache.step] at hl
    obtain ⟨hl', hfresh⟩ := lookup_reap_eq_some hd hne hl
    refine ⟨(hc k e hl').1, ?_⟩
    rintro t (ht | ⟨-, rfl⟩)
    · exact (hc k e hl').2 t ht
    · exact not_lt.1 hfresh

/-- A timed execution with a non-decreasing clock keeps the invariant, with
every tick of the execution added to `S`. -/
theorem freshSince_exec {d : Duration} (hd : isDuration d) (hne : d ≠ minInt64)
    (hpos : 0 < d) (evs : List Event) :
    ∀ (S : Time → Prop) (c : Cache), FreshSince d S c →
      evs.Pairwise (fun a b => a.clock ≤ b.clock) →
      (∀ ev ∈ evs, 0 ≤ ev.clock) →
      (∀ t, S t → ∀ ev ∈ evs, t ≤ ev.clock) →
      FreshSince d (fun t => S t ∨ (⟨t, Action.tick⟩ : Event) ∈ evs) (c.exec d evs) := by
  induction evs with
  | nil =>
    intro S c hc _ _ _
    exact hc.mono (fun t ht => ht.elim id (fun h => absurd h (List.not_mem_nil _)))
  | cons ev evs ih =>
    intro S c hc hmono hstart hS
    have hstep := freshSince_step hd hne hpos ev (hstart ev (List.mem_cons_self _ _))
      (fun t ht => hS t ht ev (List.mem_cons_self _ _)) hc
    have hrest := ih _ (c.step (ev.toOp d)) hstep (List.Pairwise.of_cons hmono)
      (fun e he => hstart e (List.mem_cons_of_mem _ he))
      (by
        rintro t (ht | ⟨-, rfl⟩) e he
        · exact hS t ht e (List.mem_cons_of_mem _ he)
        · exact List.rel_of_pairwise_cons hmono he)
    have hexec : c.exec d (ev :: evs) = (c.step (ev.toOp d)).exec d evs := by
      simp [Cache.exec, Cache.run]
    rw [hexec]
    refine hrest.mono ?_
    rintro t (ht | hmem)
    · exact Or.inl (Or.inl ht)
    · rcases List.mem_cons.1 hmem with heq | hmem
      · exact Or.inl (Or.inr (by rw [← heq]; exact ⟨rfl, rfl⟩))
      · exact Or.inr hmem

end Lifetime

/-! ## Properties of `Add`, `Get` and `reap` -/

/-- C1, round trip: in every cache, `Add(k, v)` followed at once by `Get(k)`
returns `(v, true)`, whatever the time stamped on the entry. -/
theorem add_get_roundtrip (c : Cache) (k : String) (v : ByteSlice) (now : Time) :
    ((c.Add k v now).Get k).1 = (v, true) := by
  rw [Get_of_lookup_some (lookup_Add_self c k v now)]

/-- C2 as stated fails: a reap pass at exactly `now = t0 + d` keeps the entry
stamped at `t0` (here `t0 = 0`, `d = 5`, `now = 5`), since `Before` is strict;
and for `d = math.MinInt64` the negation `-last` wraps, so a pass at
`now = 0 ≥ t0 + d` keeps the entry as well. -/
theorem expiry_at_boundary_counterexample :
    ((5 : Int) ≥ 0 + 5 ∧
      ((((NewCache 5).Add "k" (ByteSlice.bytes [1]) 0).reap 5 5).Get "k").1
        = (ByteSlice.bytes [1], true)) ∧
    ((0 : Int) ≥ 0 + minInt64 ∧
      ((((NewCache 5).Add "k" (ByteSlice.bytes [1]) 0).reap 0 minInt64).Get "k").1
        = (ByteSlice.bytes [1], true)) := by
  decide

/-- C2, expiry (amended): for a duration `d` other than `math.MinInt64`, after
`Add(k, v)` stamped at `t0`, calls that do not `Add` the key `k`, a reap pass
with interval `d` at a time `now` strictly after `t0 + d`, and again calls that
do not `Add` the key `k`, `Get(k)` returns `(nil, false)`. -/
theorem expiry_after_reap (c : Cache) (k : String) (v : ByteSlice) (t0 : Time)
    (d : Duration) (now : Time) (ops₁ ops₂ : List Op)
    (hd : isDuration d) (hne : d ≠ minInt64) (hnow : t0 + d < now)
    (h₁ : ∀ op ∈ ops₁, op.addsKey k = false) (h₂ : ∀ op ∈ ops₂, op.addsKey k = false) :
    ((((((c.Add k v t0).run ops₁).reap now d).run ops₂).Get k).1 = (ByteSlice.nil, false)) := by
  have hreap : ((((c.Add k v t0).run ops₁).reap now d)).cache.lookup k = none := by
    rcases lookup_run_of_not_addsKey ops₁ (c.Add k v t0) k h₁ with h | h
    · exact lookup_reap_of_none now d h
    · exact lookup_reap_of_stale hd hne (h.trans (lookup_Add_self c k v t0))
        (show t0 < now - d by linarith)
  rw [Get_of_lookup_none (lookup_run_none ops₂ _ k h₂ hreap)]

/-- An instance of the amended expiry property: interval 5, entry stamped at 0,
reap at 6. -/
theorem expiry_after_reap_witness :
    (((((((NewCache 5).Add "k" (ByteSlice.bytes [7]) 0).run [Op.get "k"]).reap 6 5).run
      [Op.add "j" ByteSlice.nil 6]).Get "k").1 = (ByteSlice.nil, false)) :=
  expiry_after_reap (NewCache 5) "k" (ByteSlice.bytes [7]) 0 5 6 [Op.get "k"]
    [Op.add "j" ByteSlice.nil 6] (by decide) (by decide) (by decide) (by decide) (by decide)

/-- C3, reap removes exactly the stale entries: for every cache, every time
`now` and every interval `d` that `reap` is given (`reapLoop` passes it the
interval that `time.NewTicker` accepted, so `0 < d`, within `int64`), after
`reap(now, d)` a key is present if and only if it was present before with
`createdAt` not earlier than `now - d`; what is left under a key is the entry
that was there, payload and `createdAt` unchanged, so no key is added. -/
theorem reap_removes_exactly_stale (c : Cache) (now : Time) (d : Duration) (k : String)
    (hpos : 0 < d) (hmax : d ≤ maxInt64) :
    (k ∈ (c.reap now d).cache ↔
        ∃ e, c.cache.lookup k = some e ∧ ¬ e.createdAt < now - d) ∧
      (∀ e, (c.reap now d).cache.lookup k = some e → c.cache.lookup k = some e) ∧
      (c.reap now d).cache.lookup k =
        (c.cache.lookup k).filter (fun e => decide (¬ e.createdAt < now - d)) := by
  obtain ⟨hd, hne⟩ := isDuration_of_nonneg (le_of_lt hpos) hmax
  have hfilter : (c.reap now d).cache.lookup k =
      (c.cache.lookup k).filter (fun e => decide (¬ e.createdAt < now - d)) := by
    rw [lookup_reap]
    congr 1
    funext e
    rw [timeBefore_threshold hd hne]
    by_cases hs : e.createdAt < now - d <;> simp [hs]
  have hstale : ∀ e : cacheEntry, e.createdAt < now - d →
      (some e).filter (fun e => decide (¬ e.createdAt < now - d)) = none := by
    intro e hs
    show (if decide (¬ e.createdAt < now - d) = true then some e else none) = none
    rw [if_neg (by rw [decide_eq_true_eq]; exact not_not_intro hs)]
  have hfresh : ∀ e : cacheEntry, ¬ e.createdAt < now - d →
      (some e).filter (fun e => decide (¬ e.createdAt < now - d)) = some e := by
    intro e hs
    show (if decide (¬ e.createdAt < now - d) = true then some e else none) = some e
    rw [if_pos (decide_eq_true hs)]
  refine ⟨?_, ?_, hfilter⟩
  · rw [Finmap.mem_iff, hfilter]
    cases hl : c.cache.lookup k with
    | none => simp [Option.filter]
    | some e =>
      by_cases hs : e.createdAt < now - d
      · rw [hstale e hs]
        constructor
        · rintro ⟨b, hb⟩
          exact absurd hb (by simp)
        · rintro ⟨e', he', hn⟩
          cases he'
          exact absurd hs hn
      · rw [hfresh e hs]
        exact ⟨fun _ => ⟨e, rfl, hs⟩, fun _ => ⟨e, rfl⟩⟩
  · intro e he
    rw [hfilter] at he
    cases hl : c.cache.lookup k with
    | none => rw [hl] at he; simp [Option.filter] at he
    | some e' =>
      rw [hl] at he
      by_cases hs : e'.createdAt < now - d
      · rw [hstale e' hs] at he
        exact absurd he (by simp)
      · rw [hfresh e' hs] at he
        exact he

/-- An instance of the reap property: interval 5, reap at 6, over a cache
holding a stale entry "a" (stamped 0) and a fresh entry "b" (stamped 3). -/
theorem reap_removes_exactly_stale_witness :
    ("a" ∈ ((((NewCache 5).Add "a" ByteSlice.nil 0).Add "b" ByteSlice.nil 3).reap 6 5).cache ↔
        ∃ e, (((NewCache 5).Add "a" ByteSlice.nil 0).Add "b" ByteSlice.nil 3).cache.lookup "a"
          = some e ∧ ¬ e.createdAt < 6 - 5) ∧
      (∀ e, ((((NewCache 5).Add "a" ByteSlice.nil 0).Add "b" ByteSlice.nil 3).reap 6 5).cache.lookup
          "a" = some e →
        (((NewCache 5).Add "a" ByteSlice.nil 0).Add "b" ByteSlice.nil 3).cache.lookup "a" = some e) ∧
      ((((NewCache 5).Add "a" ByteSlice.nil 0).Add "b" ByteSlice.nil 3).reap 6 5).cache.lookup "a" =
        ((((NewCache 5).Add "a" ByteSlice.nil 0).Add "b" ByteSlice.nil 3).cache.lookup "a").filter
          (fun e => decide (¬ e.createdAt < 6 - 5)) :=
  reap_removes_exactly_stale (((NewCache 5).Add "a" ByteSlice.nil 0).Add "b" ByteSlice.nil 3)
    6 5 "a" (by decide) (by decide)

/-- C4, replacement resets age: for an interval `0 < d`, after `Add(k, v1)`
stamped at `t0`, `Add(k, v2)` stamped at `t0 + d/2` and a reap pass at
`now = t0 + d` with interval `d`, the key `k` still holds the second entry and
`Get(k)` returns `(v2, true)`. -/
theorem replacement_resets_age (c : Cache) (k : String) (v1 v2 : ByteSlice) (t0 : Time)
    (d : Duration) (hpos : 0 < d) (hmax : d ≤ maxInt64) :
    ((((c.Add k v1 t0).Add k v2 (t0 + d / 2)).reap (t0 + d) d).cache.lookup k
        = some { createdAt := t0 + d / 2, val := v2 }) ∧
      ((((c.Add k v1 t0).Add k v2 (t0 + d / 2)).reap (t0 + d) d).Get k).1 = (v2, true) := by
  obtain ⟨hd, hne⟩ := isDuration_of_nonneg (le_of_lt hpos) hmax
  have hhalf : (0 : Int) ≤ d / 2 := Int.ediv_nonneg (le_of_lt hpos) (by norm_num)
  have hl : (((c.Add k v1 t0).Add k v2 (t0 + d / 2)).reap (t0 + d) d).cache.lookup k
      = some { createdAt := t0 + d / 2, val := v2 } := by
    have hnot : ¬ (t0 + d / 2 < t0 + d - d) := by
      intro h
      linarith
    exact lookup_reap_of_fresh hd hne (lookup_Add_self _ k v2 (t0 + d / 2)) hnot
  exact ⟨hl, by rw [Get_of_lookup_some hl]⟩

/-- An instance of the replacement property: `t0 = 0`, `d = 10`, second `Add`
at 5, reap at 10. -/
theorem replacement_resets_age_witness :
    (((((NewCache 10).Add "k" (ByteSlice.bytes [1]) 0).Add "k" (ByteSlice.bytes [2])
          (0 + 10 / 2)).reap (0 + 10) 10).cache.lookup "k"
        = some { createdAt := 0 + 10 / 2, val := ByteSlice.bytes [2] }) ∧
      (((((NewCache 10).Add "k" (ByteSlice.bytes [1]) 0).Add "k" (ByteSlice.bytes [2])
          (0 + 10 / 2)).reap (0 + 10) 10).Get "k").1 = (ByteSlice.bytes [2], true) :=
  replacement_resets_age (NewCache 10) "k" (ByteSlice.bytes [1]) (ByteSlice.bytes [2]) 0 10
    (by decide) (by decide)

/-- C5, the result of `Get`: `Get(k)` returns the payload of the entry stored
under `k` and `true` when `k` is in the map, and `(nil, false)` when it is not;
the flag is `true` exactly for the keys of the map. -/
theorem get_result (c : Cache) (k : String) :
    (c.Get k).1 = (c.cache.lookup k).elim (ByteSlice.nil, false) (fun e => (e.val, true)) ∧
      ((c.Get k).1.2 = true ↔ k ∈ c.cache) := by
  rw [Finmap.mem_iff]
  cases hl : c.cache.lookup k with
  | none => simp [Get_of_lookup_none hl]
  | some e => simp [Get_of_lookup_some hl]

/-- C6, absence: from a cache built by `NewCache`, after any finite sequence of
`Add`, `Get` and reap calls none of which is an `Add` of `k`, `Get(k)` returns
`(nil, false)`; and `Get` on the new cache itself misses. -/
theorem get_never_added (interval : Duration) (k : String) (ops : List Op)
    (h : ∀ op ∈ ops, op.addsKey k = false) :
    (((NewCache interval).run ops).Get k).1 = (ByteSlice.nil, false) ∧
      ((NewCache interval).Get k).1 = (ByteSlice.nil, false) := by
  constructor
  · rw [Get_of_lookup_none (lookup_run_none ops _ k h (lookup_NewCache interval k))]
  · rw [Get_of_lookup_none (lookup_NewCache interval k)]

/-- An instance of the absence property: the key "b" after an `Add` of "a", a
`Get` of "b" and a reap pass. -/
theorem get_never_added_witness :
    (((NewCache 5).run [Op.add "a" (ByteSlice.bytes [1]) 0, Op.get "b", Op.reap 10 5]).Get
        "b").1 = (ByteSlice.nil, false) ∧
      ((NewCache 5).Get "b").1 = (ByteSlice.nil, false) :=
  get_never_added 5 "b" [Op.add "a" (ByteSlice.bytes [1]) 0, Op.get "b", Op.reap 10 5]
    (by decide)

/-- One call allowed by `Op.beforeExpiry` leaves the entry stamped at `t0` in place. -/
theorem lookup_step_beforeExpiry (c : Cache) (k : String) (v : ByteSlice) (t0 : Time)
    (d : Duration) (hd : isDuration d) (hne : d ≠ minInt64) (op : Op)
    (hop : op.beforeExpiry k t0 d)
    (hc : c.cache.lookup k = some { createdAt := t0, val := v }) :
    (c.step op).cache.lookup k = some { createdAt := t0, val := v } := by
  cases op with
  | add key value now =>
    have hk : k ≠ key := fun hk => hop hk.symm
    rw [← hc]
    exact lookup_Add_of_ne c value now hk
  | get key =>
    rw [← hc]
    simp only [Cache.step, Cache.Get]
    split <;> rfl
  | reap now last =>
    obtain ⟨hlast, hnow⟩ := hop
    subst hlast
    have hnot : ¬ (t0 < now - last) := by
      intro h
      linarith
    exact lookup_reap_of_fresh hd hne hc hnot

/-- C7, an entry whose interval has not elapsed is observed: for `0 ≤ d`, after
`Add(k, v)` stamped at `t0` and any sequence of `Get`s, `Add`s to other keys and
reap passes with interval `d` at times `now < t0 + d`, `Get(k)` returns
`(v, true)`. -/
theorem unexpired_entry_observed (c : Cache) (k : String) (v : ByteSlice) (t0 : Time)
    (d : Duration) (ops : List Op) (hnonneg : 0 ≤ d) (hmax : d ≤ maxInt64)
    (hops : ∀ op ∈ ops, op.beforeExpiry k t0 d) :
    (((c.Add k v t0).run ops).Get k).1 = (v, true) := by
  obtain ⟨hd, hne⟩ := isDuration_of_nonneg hnonneg hmax
  have key : ∀ (ops : List Op) (c' : Cache), (∀ op ∈ ops, op.beforeExpiry k t0 d) →
      c'.cache.lookup k = some { createdAt := t0, val := v } →
      (c'.run ops).cache.lookup k = some { createdAt := t0, val := v } := by
    intro ops
    induction ops with
    | nil => intro c' _ hc; exact hc
    | cons op ops ih =>
      intro c' h hc
      simp only [Cache.run, List.foldl_cons]
      exact ih (c'.step op) (fun o ho => h o (List.mem_cons_of_mem _ ho))
        (lookup_step_beforeExpiry c' k v t0 d hd hne op (h op (List.mem_cons_self _ _)) hc)
  rw [Get_of_lookup_some (key ops _ hops (lookup_Add_self c k v t0))]

/-- An instance of the unexpired-entry property: entry stamped at 0, interval 5,
reap passes at 2 and 4 among other calls. -/
theorem unexpired_entry_observed_witness :
    ((((NewCache 5).Add "k" (ByteSlice.bytes [9]) 0).run
        [Op.reap 2 5, Op.add "j" ByteSlice.nil 3, Op.get "k", Op.reap 4 5]).Get "k").1
      = (ByteSlice.bytes [9], true) :=
  unexpired_entry_observed (NewCache 5) "k" (ByteSlice.bytes [9]) 0 5
    [Op.reap 2 5, Op.add "j" ByteSlice.nil 3, Op.get "k", Op.reap 4 5]
    (by decide) (by decide) (by decide)

/-- C9, overwrite: `Add(k, v1)` stamped `t1` followed by `Add(k, v2)` stamped
`t2` leaves the same cache as `Add(k, v2)` stamped `t2` alone; the entry under
`k` is the second one, `createdAt` included, the map holds `k` once, and
repeating an `Add` with the same stamp changes nothing. -/
theorem add_overwrites (c : Cache) (k : String) (v1 v2 : ByteSlice) (t1 t2 : Time) :
    (c.Add k v1 t1).Add k v2 t2 = c.Add k v2 t2 ∧
      ((c.Add k v1 t1).Add k v2 t2).cache.lookup k = some { createdAt := t2, val := v2 } ∧
      Multiset.count k ((c.Add k v1 t1).Add k v2 t2).cache.entries.keys = 1 ∧
      (c.Add k v2 t2).Add k v2 t2 = c.Add k v2 t2 := by
  have hrepl : ∀ (w : ByteSlice) (t : Time), (c.Add k w t).Add k v2 t2 = c.Add k v2 t2 := by
    intro w t
    simp only [Cache.Add, Finmap.insert_insert]
  refine ⟨hrepl v1 t1, lookup_Add_self _ k v2 t2, ?_, hrepl v2 t2⟩
  apply Multiset.count_eq_one_of_mem
  · exact Multiset.nodup_keys.2 (Finmap.nodupKeys _)
  · rw [← Finmap.mem_def, Finmap.mem_iff]
    exact ⟨_, lookup_Add_self _ k v2 t2⟩

/-- C10, `Get` is non-destructive: for every cache and key, present or absent,
the cache after `Get(k)` is the cache before it. -/
theorem get_leaves_cache (c : Cache) (k : String) : (c.Get k).2 = c := by
  unfold Cache.Get
  split <;> rfl

/-- C8, bounded lifetime: take an execution from a new cache whose clock starts
at `0` and never decreases, in which every `Add` stamps its entry with the clock
and every tick runs a reap pass with the interval `0 < d`. At an instant `T`
by which a tick has run at every positive multiple of `d` before `T`, every
entry of the map has age `T - createdAt` at most `2 * d`. -/
theorem bounded_lifetime (d : Duration) (evs : List Event) (T : Time) (k : String)
    (e : cacheEntry) (hpos : 0 < d) (hmax : d ≤ maxInt64)
    (hmono : evs.Pairwise (fun a b => a.clock ≤ b.clock))
    (hstart : ∀ ev ∈ evs, 0 ≤ ev.clock)
    (hticks : ∀ m : Int, 1 ≤ m → m * d < T → (⟨m * d, Action.tick⟩ : Event) ∈ evs)
    (hk : ((NewCache d).exec d evs).cache.lookup k = some e) :
    T - e.createdAt ≤ 2 * d := by
  obtain ⟨hd, hne⟩ := isDuration_of_nonneg (le_of_lt hpos) hmax
  have hinv := freshSince_exec hd hne hpos evs (fun _ => False) (NewCache d)
    (freshSince_NewCache d d _) hmono hstart (fun t ht => absurd ht id)
  obtain ⟨h0, hsurv⟩ := hinv k e hk
  by_contra hage
  have hage' : 2 * d < T - e.createdAt := not_le.1 hage
  have hdiv : e.createdAt % d + d * (e.createdAt / d) = e.createdAt :=
    Int.emod_add_ediv e.createdAt d
  have hrem : e.createdAt % d < d := Int.emod_lt_of_pos e.createdAt hpos
  have hrem0 : 0 ≤ e.createdAt % d := Int.emod_nonneg e.createdAt (ne_of_gt hpos)
  have hq : 0 ≤ e.createdAt / d := Int.ediv_nonneg h0 (le_of_lt hpos)
  have hm1 : (1 : Int) ≤ e.createdAt / d + 2 := by linarith
  have hm2 : (e.createdAt / d + 2) * d < T := by nlinarith
  have hle := hsurv _ (Or.inr (hticks (e.createdAt / d + 2) hm1 hm2))
  nlinarith

/-- An instance of the lifetime bound: interval 5, ticks at 5 and 10, the entry
"c" stamped at 6 is still in the map at `T = 12`. -/
theorem bounded_lifetime_witness :
    (12 : Int) - (cacheEntry.mk 6 (ByteSlice.bytes [2])).createdAt ≤ 2 * 5 :=
  bounded_lifetime 5
    [⟨0, Action.add "a" (ByteSlice.bytes [1])⟩, ⟨5, Action.tick⟩,
      ⟨6, Action.add "c" (ByteSlice.bytes [2])⟩, ⟨10, Action.tick⟩]
    12 "c" ⟨6, ByteSlice.bytes [2]⟩ (by decide) (by decide) (by decide) (by decide)
    (by
      intro m h1 h2
      have hm : m = 1 ∨ m = 2 := by omega
      rcases hm with rfl | rfl <;> decide)
    (by decide)

/-- With a positive interval the goroutine gets its ticker and the cache is
left as it is. -/
theorem program_enterReapLoop_of_pos (interval : Duration) (c : Cache) (h : 0 < interval) :
    Program.step interval (Program.spawned c) ProgStep.enterReapLoop = Program.ticking c := by
  simp [Program.step, Cache.reapLoop, not_le.2 h]

/-- Once `reapLoop` holds its ticker, the program runs a timed execution as
`Cache.exec` does. -/
theorem program_run_ticking (interval : Duration) (evs : List Event) (c : Cache) :
    Program.run interval (Program.ticking c) (evs.map Event.toStep)
      = Program.ticking (c.exec interval evs) := by
  induction evs generalizing c with
  | nil => rfl
  | cons ev evs ih =>
    obtain ⟨clock, action⟩ := ev
    have hstep : Program.step interval (Program.ticking c) (Event.toStep ⟨clock, action⟩)
        = Program.ticking (c.step (Event.toOp interval ⟨clock, action⟩)) := by
      cases action <;> rfl
    simp only [Program.run, List.map_cons, List.foldl_cons, hstep] at ih ⊢
    rw [ih]
    simp [Cache.exec, Cache.run]

/-- Calls made while the goroutine has not entered `reapLoop` act on the cache
as they do without the goroutine. -/
theorem program_run_calls (interval : Duration) (ops : List Op) (c : Cache) :
    Program.run interval (Program.spawned c) (ops.map ProgStep.call)
      = Program.spawned (c.run ops) := by
  induction ops generalizing c with
  | nil => rfl
  | cons op ops ih =>
    simp only [Program.run, List.map_cons, List.foldl_cons, Program.step] at ih ⊢
    rw [ih]
    simp [Cache.run]

theorem program_run_terminated (interval : Duration) (steps : List ProgStep) :
    Program.run interval Program.terminated steps = Program.terminated := by
  induction steps with
  | nil => rfl
  | cons st steps ih =>
    simpa only [Program.run, List.foldl_cons, Program.step] using ih

/-- C11 as stated fails: at the interval `0` there is a run of the program in
which `NewCache` has returned a cache and `Add("k", [1])` followed by
`Get("k")` on it returns `([1], true)`, so construction has not failed with an
error. What ends the program comes later and is no error of `NewCache`: the
panic of `time.NewTicker` when the goroutine enters `reapLoop`. -/
theorem newCache_zero_interval_counterexample :
    (0 : Duration) ≤ 0 ∧
      (Program.run 0 (Program.afterNewCache 0)
        [ProgStep.call (Op.add "k" (ByteSlice.bytes [1]) 0)]).Get "k"
        = some (ByteSlice.bytes [1], true) ∧
      (Program.run 0 (Program.afterNewCache 0)
        [ProgStep.call (Op.add "k" (ByteSlice.bytes [1]) 0), ProgStep.enterReapLoop]).Get "k"
        = none := by
  decide

/-- C11, invalid interval (amended): for every zero or negative interval,
`NewCache` returns a cache with an empty map and no error; the calls that the
owner makes before the goroutine enters `reapLoop` act on that cache; and when
the goroutine enters `reapLoop`, `time.NewTicker` panics and the program is
over, whatever steps were to follow: no reap pass runs and no later `Get`
returns. -/
theorem newCache_invalid_interval_terminates (interval : Duration) (before : List Op)
    (after : List ProgStep) (h : interval ≤ 0) :
    Program.run interval (Program.afterNewCache interval) (before.map ProgStep.call)
        = Program.spawned ((NewCache interval).run before) ∧
      Program.run interval (Program.afterNewCache interval)
        (before.map ProgStep.call ++ ProgStep.enterReapLoop :: after) = Program.terminated ∧
      (∀ k, (Program.run interval (Program.afterNewCache interval)
        (before.map ProgStep.call ++ ProgStep.enterReapLoop :: after)).Get k = none) := by
  have hcalls := program_run_calls interval before (NewCache interval)
  have hterm : Program.run interval (Program.afterNewCache interval)
      (before.map ProgStep.call ++ ProgStep.enterReapLoop :: after) = Program.terminated := by
    have hsplit : Program.run interval (Program.afterNewCache interval)
        (before.map ProgStep.call ++ ProgStep.enterReapLoop :: after)
        = Program.run interval (Program.step interval
            (Program.run interval (Program.spawned (NewCache interval))
              (before.map ProgStep.call)) ProgStep.enterReapLoop) after := by
      simp [Program.run, Program.afterNewCache, List.foldl_append]
    rw [hsplit, hcalls]
    have henter : Program.step interval (Program.spawned ((NewCache interval).run before))
        ProgStep.enterReapLoop = Program.terminated := by
      simp [Program.step, Cache.reapLoop, h]
    rw [henter, program_run_terminated]
  refine ⟨hcalls, hterm, ?_⟩
  intro k
  rw [hterm]
  rfl

/-- An instance of the amended construction property, at the interval `-5`:
an `Add` and a `Get` before the goroutine enters `reapLoop`, a `Get` and a tick
after. -/
theorem newCache_invalid_interval_terminates_witness :
    Program.run (-5) (Program.afterNewCache (-5))
        ([Op.add "k" (ByteSlice.bytes [1]) 0, Op.get "k"].map ProgStep.call)
        = Program.spawned ((NewCache (-5)).run [Op.add "k" (ByteSlice.bytes [1]) 0, Op.get "k"]) ∧
      Program.run (-5) (Program.afterNewCache (-5))
        ([Op.add "k" (ByteSlice.bytes [1]) 0, Op.get "k"].map ProgStep.call ++
          ProgStep.enterReapLoop :: [ProgStep.call (Op.get "k"), ProgStep.tick 3])
        = Program.terminated ∧
      (∀ k, (Program.run (-5) (Program.afterNewCache (-5))
        ([Op.add "k" (ByteSlice.bytes [1]) 0, Op.get "k"].map ProgStep.call ++
          ProgStep.enterReapLoop :: [ProgStep.call (Op.get "k"), ProgStep.tick 3])).Get k
        = none) :=
  newCache_invalid_interval_terminates (-5) [Op.add "k" (ByteSlice.bytes [1]) 0, Op.get "k"]
    [ProgStep.call (Op.get "k"), ProgStep.tick 3] (by decide)

/-- C12, scenario: with `interval = 5ms`, after `Add("a", [1,2,3])` stamped at
`t = 0` the `Get("a")` made at `t = 1ms` returns `([1,2,3], true)`; after the
ticks at `5ms` and `10ms`, each a reap pass with interval `5ms`, the `Get("a")`
made at `t = 12ms` returns `(nil, false)`. The same holds with the two passes
run by `reapLoop`. -/
theorem scenario_five_milliseconds :
    (((NewCache (5 * millisecond)).exec (5 * millisecond)
        [⟨0, Action.add "a" (ByteSlice.bytes [1, 2, 3])⟩]).Get "a").1
      = (ByteSlice.bytes [1, 2, 3], true) ∧
    (((NewCache (5 * millisecond)).exec (5 * millisecond)
        [⟨0, Action.add "a" (ByteSlice.bytes [1, 2, 3])⟩, ⟨1 * millisecond, Action.get "a"⟩,
          ⟨5 * millisecond, Action.tick⟩, ⟨10 * millisecond, Action.tick⟩]).Get "a").1
      = (ByteSlice.nil, false) ∧
    (((NewCache (5 * millisecond)).Add "a" (ByteSlice.bytes [1, 2, 3]) 0).reapLoop
        (5 * millisecond) [5 * millisecond, 10 * millisecond]).map (fun c => (c.Get "a").1)
      = some (ByteSlice.nil, false) := by
  decide

/-! ## Frame and absorption -/

/-- Two caches with the same entry under every key are the same cache. -/
theorem cache_ext {a b : Cache} (h : ∀ k, a.cache.lookup k = b.cache.lookup k) : a = b := by
  cases a
  cases b
  simp only [Cache.mk.injEq]
  exact Finmap.ext_lookup h

/-- What is under a key after a reap pass, for any `last`: the entry that was
there, when the test of `reap` fails on it. -/
theorem lookup_reap_eq_some_iff (c : Cache) (now : Time) (last : Duration) (k : String)
    (e : cacheEntry) :
    (c.reap now last).cache.lookup k = some e ↔
      c.cache.lookup k = some e ∧
        timeBefore e.createdAt (timeAdd now (negDuration last)) = false := by
  rw [lookup_reap]
  cases hl : c.cache.lookup k with
  | none => simp [Option.filter]
  | some e' =>
    rw [Option.filter_some]
    by_cases hs : timeBefore e'.createdAt (timeAdd now (negDuration last)) = true
    · rw [if_neg (by simp [hs])]
      constructor
      · intro h
        exact absurd h (by simp)
      · rintro ⟨h1, h2⟩
        cases h1
        rw [h2] at hs
        exact absurd hs (by simp)
    · rw [if_pos (by simpa using hs)]
      constructor
      · intro h
        cases h
        exact ⟨rfl, by simpa using hs⟩
      · rintro ⟨h1, -⟩
        exact h1

/-- The test of `reap` at an earlier time implies the test at a later time. -/
theorem timeBefore_threshold_mono {t now₁ now₂ : Time} (last : Duration) (h : now₁ ≤ now₂)
    (hb : timeBefore t (timeAdd now₂ (negDuration last)) = false) :
    timeBefore t (timeAdd now₁ (negDuration last)) = false := by
  simp only [timeBefore, timeAdd, decide_eq_false_iff_not, not_lt] at hb ⊢
  linarith

/-- C14, `Add` touches only its own key: for every other key `k'`, `Add(k, v)`
leaves what is under `k'` as it was, entry or absence, so `Get(k')` returns the
same result before and after; and every key of the map is still a key of it
after the `Add`. -/
theorem add_touches_only_its_key (c : Cache) (k : String) (v : ByteSlice) (now : Time)
    (k' : String) (h : k' ≠ k) :
    (c.Add k v now).cache.lookup k' = c.cache.lookup k' ∧
      ((c.Add k v now).Get k').1 = (c.Get k').1 ∧
      (∀ j, j ∈ c.cache → j ∈ (c.Add k v now).cache) := by
  have hl := lookup_Add_of_ne c v now h
  refine ⟨hl, ?_, ?_⟩
  · simp only [Cache.Get, hl]
    cases c.cache.lookup k' <;> rfl
  · intro j hj
    simp only [Cache.Add, Finmap.mem_insert]
    exact Or.inr hj

/-- An instance of the frame property of `Add`: the key "b" around an `Add` of
"a" to a cache that holds both. -/
theorem add_touches_only_its_key_witness :
    ((((NewCache 5).Add "a" ByteSlice.nil 0).Add "b" (ByteSlice.bytes [2]) 1).Add "a"
        (ByteSlice.bytes [3]) 2).cache.lookup "b"
        = (((NewCache 5).Add "a" ByteSlice.nil 0).Add "b" (ByteSlice.bytes [2]) 1).cache.lookup
          "b" ∧
      (((((NewCache 5).Add "a" ByteSlice.nil 0).Add "b" (ByteSlice.bytes [2]) 1).Add "a"
        (ByteSlice.bytes [3]) 2).Get "b").1
        = ((((NewCache 5).Add "a" ByteSlice.nil 0).Add "b" (ByteSlice.bytes [2]) 1).Get "b").1 ∧
      (∀ j, j ∈ (((NewCache 5).Add "a" ByteSlice.nil 0).Add "b" (ByteSlice.bytes [2]) 1).cache →
        j ∈ ((((NewCache 5).Add "a" ByteSlice.nil 0).Add "b" (ByteSlice.bytes [2]) 1).Add "a"
          (ByteSlice.bytes [3]) 2).cache) :=
  add_touches_only_its_key (((NewCache 5).Add "a" ByteSlice.nil 0).Add "b" (ByteSlice.bytes [2]) 1)
    "a" (ByteSlice.bytes [3]) 2 "b" (by decide)

/-- C15, reap passes absorb earlier ones: for every cache, every `d` and times
`now1 ≤ now2`, `reap(now1, d)` followed by `reap(now2, d)` leaves the same cache
as `reap(now2, d)` alone; a pass repeated at the same time changes nothing; and
every key that survives the later pass survives the earlier one. -/
theorem reap_absorbs_earlier (c : Cache) (d : Duration) (now1 now2 : Time)
    (h : now1 ≤ now2) :
    (c.reap now1 d).reap now2 d = c.reap now2 d ∧
      (c.reap now2 d).reap now2 d = c.reap now2 d ∧
      (∀ k, k ∈ (c.reap now2 d).cache → k ∈ (c.reap now1 d).cache) := by
  have key : ∀ n : Time, n ≤ now2 → (c.reap n d).reap now2 d = c.reap now2 d := by
    intro n hn
    apply cache_ext
    intro k
    apply Option.ext
    intro e
    simp only [Option.mem_def, lookup_reap_eq_some_iff]
    constructor
    · rintro ⟨⟨h1, -⟩, h2⟩
      exact ⟨h1, h2⟩
    · rintro ⟨h1, h2⟩
      exact ⟨⟨h1, timeBefore_threshold_mono d hn h2⟩, h2⟩
  refine ⟨key now1 h, key now2 (le_refl _), ?_⟩
  intro k hk
  rw [Finmap.mem_iff] at hk ⊢
  obtain ⟨e, he⟩ := hk
  rw [lookup_reap_eq_some_iff] at he
  exact ⟨e, (lookup_reap_eq_some_iff c now1 d k e).2
    ⟨he.1, timeBefore_threshold_mono d h he.2⟩⟩

/-- An instance of the absorption property: interval 5, passes at 6 and at 9
over a cache with entries stamped 0, 3 and 8. -/
theorem reap_absorbs_earlier_witness :
    (((((NewCache 5).Add "a" ByteSlice.nil 0).Add "b" ByteSlice.nil 3).Add "c" ByteSlice.nil
        8).reap 6 5).reap 9 5
        = ((((NewCache 5).Add "a" ByteSlice.nil 0).Add "b" ByteSlice.nil 3).Add "c" ByteSlice.nil
          8).reap 9 5 ∧
      (((((NewCache 5).Add "a" ByteSlice.nil 0).Add "b" ByteSlice.nil 3).Add "c" ByteSlice.nil
        8).reap 9 5).reap 9 5
        = ((((NewCache 5).Add "a" ByteSlice.nil 0).Add "b" ByteSlice.nil 3).Add "c" ByteSlice.nil
          8).reap 9 5 ∧
      (∀ k, k ∈ (((((NewCache 5).Add "a" ByteSlice.nil 0).Add "b" ByteSlice.nil 3).Add "c"
          ByteSlice.nil 8).reap 9 5).cache →
        k ∈ (((((NewCache 5).Add "a" ByteSlice.nil 0).Add "b" ByteSlice.nil 3).Add "c"
          ByteSlice.nil 8).reap 6 5).cache) :=
  reap_absorbs_earlier
    ((((NewCache 5).Add "a" ByteSlice.nil 0).Add "b" ByteSlice.nil 3).Add "c" ByteSlice.nil 8)
    5 6 9 (by decide)

/-! ## Entries of a sequential history

When the calls are taken one after another, as the mutex orders them, every
entry of the map is one that a single `Add` wrote, payload and stamp together.
The interleaving of goroutines itself is outside this embedding. -/

theorem lookup_step_eq_some (c : Cache) (op : Op) (k : String) (e : cacheEntry)
    (h : (c.step op).cache.lookup k = some e) :
    c.cache.lookup k = some e ∨ op = Op.add k e.val e.createdAt := by
  cases op with
  | add key value now =>
    by_cases hk : k = key
    · subst hk
      simp only [Cache.step] at h
      rw [lookup_Add_self] at h
      cases h
      exact Or.inr rfl
    · simp only [Cache.step] at h
      rw [lookup_Add_of_ne c value now hk] at h
      exact Or.inl h
  | get key =>
    left
    simp only [Cache.step, Cache.Get] at h
    split at h <;> exact h
  | reap now last =>
    simp only [Cache.step] at h
    exact Or.inl ((lookup_reap_eq_some_iff c now last k e).1 h).1

/-- After any sequence of calls, an entry of the map was there at the start or
was written whole by one `Add` of the sequence. -/
theorem entry_written_by_single_add (ops : List Op) (c : Cache) (k : String) (e : cacheEntry)
    (h : (c.run ops).cache.lookup k = some e) :
    c.cache.lookup k = some e ∨ Op.add k e.val e.createdAt ∈ ops := by
  induction ops generalizing c with
  | nil => exact Or.inl h
  | cons op ops ih =>
    simp only [Cache.run, List.foldl_cons] at h
    rcases ih (c.step op) h with h1 | h1
    · rcases lookup_step_eq_some c op k e h1 with h2 | h2
      · exact Or.inl h2
      · exact Or.inr (by rw [h2]; exact List.mem_cons_self _ _)
    · exact Or.inr (List.mem_cons_of_mem _ h1)

end Pokecache
